import Mathlib

/-!
Verification of the pihole-ingress-operator core: the DNS-store session
client (internal/pihole/client.go) and the reconciliation engine shared by
the Ingress controller (internal/controller/ingress_controller.go) and the
Gateway route controllers (shared helper reconcileRoute and friends).

Go strings are embedded as lists of characters (`Str`), Go byte/char
functions as Lean functions on `Char`, and the remote DNS store's host
list as a list of raw "address domain" tokens.  Stateful HTTP behaviour is
modelled by explicit environments mapping request indices to responses.
-/

namespace PiholeOperator

/-- Go strings modelled as lists of characters. -/
abbrev Str := List Char

/-- Convert a Lean string literal into the character-list model. -/
def str (s : String) : Str := s.data

/-- Embedding of Go `unicode.IsSpace`, used by `strings.TrimSpace` and
`strings.Fields`: the Unicode White_Space set — tab through carriage
return (U+0009..U+000D), space, NEL (U+0085), NBSP (U+00A0), Ogham space
mark (U+1680), the typographic spaces U+2000..U+200A, line and paragraph
separators (U+2028, U+2029), narrow no-break space (U+202F), medium
mathematical space (U+205F) and ideographic space (U+3000). -/
def goIsSpace (c : Char) : Bool :=
  (decide (9 ≤ c.toNat) && decide (c.toNat ≤ 13)) || c.toNat == 32 ||
  c.toNat == 133 || c.toNat == 160 || c.toNat == 5760 ||
  (decide (8192 ≤ c.toNat) && decide (c.toNat ≤ 8202)) ||
  c.toNat == 8232 || c.toNat == 8233 || c.toNat == 8239 ||
  c.toNat == 8287 || c.toNat == 12288

/-- Split a character list at every character satisfying `p`, keeping empty
pieces, as Go `strings.Split` (single-character separator) and the splitting
underlying `strings.Fields` do. -/
def splitOnP (p : Char → Bool) : Str → List Str
  | [] => [[]]
  | c :: rest =>
    if p c then [] :: splitOnP p rest
    else
      match splitOnP p rest with
      | [] => [[c]]
      | g :: gs => (c :: g) :: gs

/-- Embedding of Go `strings.Split(s, sep)` for a one-character separator. -/
def splitOnChar (sep : Char) (s : Str) : List Str :=
  splitOnP (fun c => c == sep) s

/-- Embedding of Go `strings.TrimSpace`. -/
def trimSpace (s : Str) : Str :=
  ((s.dropWhile goIsSpace).reverse.dropWhile goIsSpace).reverse

/-- Embedding of Go `strings.Fields`: maximal runs of non-space characters. -/
def goFields (s : Str) : List Str :=
  (splitOnP goIsSpace s).filter (fun f => !f.isEmpty)

/-- Embedding of `parseCommaSeparated` (internal/controller/common.go):
split on commas, trim whitespace, drop entries that are empty after
trimming. -/
def parseCommaSeparated (s : Str) : List Str :=
  ((splitOnChar ',' s).map trimSpace).filter (fun p => !p.isEmpty)

/-- Embedding of Go `strings.Join(hosts, ",")`. -/
def joinComma : List Str → Str
  | [] => []
  | [h] => h
  | h :: h2 :: t => h ++ ',' :: joinComma (h2 :: t)

/-- Numeric value of a decimal digit character. -/
def digitVal (c : Char) : Nat := c.toNat - 48

/-- Value of a decimal digit string. -/
def decFieldVal (f : Str) : Nat := f.foldl (fun a c => a * 10 + digitVal c) 0

/-- Validity of one dotted-decimal IPv4 field, as in Go's
`netip.parseIPv4Fields`: non-empty, all digits, no leading zero, and with
value at most 255. -/
def ipv4FieldOk (f : Str) : Bool :=
  !f.isEmpty && f.all Char.isDigit &&
  !(decide (f.length > 1) && f.head? == some '0') &&
  decide (decFieldVal f ≤ 255)

/-- Embedding of Go `netip.parseIPv4` (reached through `net.ParseIP`):
exactly four valid dotted-decimal fields. -/
def parseIPv4 (s : Str) : Option (List Nat) :=
  let fs := splitOnChar '.' s
  if fs.length == 4 && fs.all ipv4FieldOk then some (fs.map decFieldVal)
  else none

/-- Hexadecimal digit test used by Go's IPv6 parser. -/
def isHexChar (c : Char) : Bool :=
  c.isDigit || (97 ≤ c.toNat && c.toNat ≤ 102) || (65 ≤ c.toNat && c.toNat ≤ 70)

/-- Numeric value of a hexadecimal digit character. -/
def hexDigitVal (c : Char) : Nat :=
  if c.isDigit then c.toNat - 48
  else if 97 ≤ c.toNat then c.toNat - 87
  else c.toNat - 55

/-- Value of a group of hexadecimal digits. -/
def hexGroupVal (g : Str) : Nat := g.foldl (fun a c => a * 16 + hexDigitVal c) 0

/-- Post-loop processing of Go `netip.parseIPv6`: expand the `::` ellipsis
to the missing zero bytes, rejecting an address that is complete while an
ellipsis is present, or incomplete without one. -/
def ipv6Finish (acc : List Nat) (i : Nat) (ell : Option Nat) : Option (List Nat) :=
  if i < 16 then
    match ell with
    | none => none
    | some e => some (acc.take e ++ List.replicate (16 - i) 0 ++ acc.drop e)
  else if ell.isSome then none
  else some acc

/-- Main loop of Go `netip.parseIPv6`, fuelled (the loop runs at most eight
times since each iteration adds at least two of the sixteen bytes).  `i` is
the number of bytes accumulated, `ell` the byte position of a `::` if one
was seen.  A `%` zone character is treated as an invalid character, which
matches `net.ParseIP` since it rejects every address carrying a zone. -/
def ipv6Loop : Nat → Str → Nat → List Nat → Option Nat → Option (List Nat)
  | 0, _, _, _, _ => none
  | fuel + 1, s, i, acc, ell =>
    if i < 16 then
      let hs := s.takeWhile isHexChar
      let rest := s.dropWhile isHexChar
      if hs.isEmpty then none
      else if decide (hs.length > 4) then none
      else if rest.head? == some '.' then
        if ell.isNone && !(i == 12) then none
        else if decide (i + 4 > 16) then none
        else
          match parseIPv4 s with
          | none => none
          | some b4 => ipv6Finish (acc ++ b4) (i + 4) ell
      else
        match rest with
        | [] => ipv6Finish (acc ++ [hexGroupVal hs / 256, hexGroupVal hs % 256]) (i + 2) ell
        | ':' :: rest2 =>
          match rest2 with
          | [] => none
          | ':' :: rest3 =>
            if ell.isSome then none
            else if rest3.isEmpty then
              ipv6Finish (acc ++ [hexGroupVal hs / 256, hexGroupVal hs % 256]) (i + 2) (some (i + 2))
            else
              ipv6Loop fuel rest3 (i + 2)
                (acc ++ [hexGroupVal hs / 256, hexGroupVal hs % 256]) (some (i + 2))
          | _ =>
            ipv6Loop fuel rest2 (i + 2)
              (acc ++ [hexGroupVal hs / 256, hexGroupVal hs % 256]) ell
        | _ => none
    else if s.isEmpty then ipv6Finish acc i ell
    else none

/-- Embedding of Go `netip.parseIPv6` (reached through `net.ParseIP`). -/
def parseIPv6 (s : Str) : Option (List Nat) :=
  match s with
  | ':' :: ':' :: rest =>
    if rest.isEmpty then some (List.replicate 16 0) else ipv6Loop 8 rest 0 [] (some 0)
  | _ => ipv6Loop 8 s 0 [] none

/-- A parsed IP address: four-byte dotted decimal or sixteen-byte IPv6. -/
inductive IPAddr where
  | v4 (bytes : List Nat)
  | v6 (bytes : List Nat)
deriving DecidableEq, Repr

/-- Dispatcher of Go `netip.ParseAddr`: scan for the first `.`, `:` or `%`
and hand the whole string to the corresponding parser. -/
def parseIPGo (full : Str) : List Char → Option IPAddr
  | [] => none
  | c :: rest =>
    if c == '.' then (parseIPv4 full).map IPAddr.v4
    else if c == ':' then (parseIPv6 full).map IPAddr.v6
    else if c == '%' then none
    else parseIPGo full rest

/-- Embedding of Go `net.ParseIP`. -/
def parseIP (s : Str) : Option IPAddr := parseIPGo s s

/-- Go `net.IP.To4` on the parsed form: a four-byte address is returned as
is; a sixteen-byte address is accepted exactly when it is IPv4-mapped
(ten zero bytes followed by `0xff 0xff`). -/
def to4 : IPAddr → Option (List Nat)
  | .v4 b => some b
  | .v6 b =>
    if (b.take 10).all (fun x => x == 0) && (b.drop 10).take 2 == [255, 255] then
      some (b.drop 12)
    else none

/-- Embedding of `isValidIPv4` (internal/controller/common.go):
`net.ParseIP` must succeed and `To4` must be non-nil. -/
def isValidIPv4 (s : Str) : Bool :=
  match parseIP s with
  | none => false
  | some a => (to4 a).isSome

/-- Annotation key `pihole.io/register`. -/
def annRegister : Str := str "pihole.io/register"

/-- Annotation key `pihole.io/target-ip`. -/
def annTargetIP : Str := str "pihole.io/target-ip"

/-- Annotation key `pihole.io/hosts`. -/
def annHosts : Str := str "pihole.io/hosts"

/-- Annotation key `pihole.io/managed-hosts`. -/
def annManagedHosts : Str := str "pihole.io/managed-hosts"

/-- A Go `map[string]string` of annotations, modelled as an association
list (a nil map behaves as an empty one for every lookup the code does). -/
abbrev Annotations := List (Str × Str)

/-- Indexing `annotations[key]` with its `ok` flag. -/
def lookupAnn (ann : Annotations) (k : Str) : Option Str :=
  (ann.find? (fun p => p.1 == k)).map (fun p => p.2)

/-- Set a key in an annotation map. -/
def setAnn (ann : Annotations) (k v : Str) : Annotations :=
  (k, v) :: ann.filter (fun p => !(p.1 == k))

/-- Delete a key from an annotation map. -/
def delAnn (ann : Annotations) (k : Str) : Annotations :=
  ann.filter (fun p => !(p.1 == k))

/-- The routing objects the controllers reconcile (one shape covers the
Ingress and the Gateway route kinds): a deletion marker, the
`pihole.io/dns-cleanup` finalizer, the annotation map, and the
spec-declared hostname list (`spec.rules[].host` or `spec.hostnames`). -/
structure RouteObj where
  deleting : Bool
  finalizer : Bool
  annotations : Annotations
  specHosts : List Str
deriving Repr

/-- Embedding of the source's registration check: the register annotation
must be the exact literal `true`. -/
def hasRegistrationAnn (ann : Annotations) : Bool :=
  lookupAnn ann annRegister == some (str "true")

/-- Embedding of `extractHosts` (same logic in the Ingress reconciler and
each Gateway route reconciler): a non-empty hosts override annotation is
parsed as a comma-separated list and replaces the spec-declared hosts;
otherwise the spec hosts are used with empty entries skipped. -/
def extractHosts (obj : RouteObj) : List Str :=
  match lookupAnn obj.annotations annHosts with
  | some v => if !v.isEmpty then parseCommaSeparated v else obj.specHosts.filter (fun h => !h.isEmpty)
  | none => obj.specHosts.filter (fun h => !h.isEmpty)

/-- Embedding of `resolveTargetIP`: a present non-empty override must be a
valid IPv4 per `isValidIPv4`, an invalid one yields the empty string with
no fallback; a present-but-empty override or an absent one yields the
default target address. -/
def resolveTargetIP (ann : Annotations) (defaultTargetIP : Str) : Str :=
  match lookupAnn ann annTargetIP with
  | some ip => if !ip.isEmpty then (if isValidIPv4 ip then ip else []) else defaultTargetIP
  | none => defaultTargetIP

/-- Embedding of `getManagedHosts`: absent or empty annotation yields the
empty list, otherwise the comma-separated parse. -/
def getManagedHosts (ann : Annotations) : List Str :=
  match lookupAnn ann annManagedHosts with
  | none => []
  | some m => if m.isEmpty then [] else parseCommaSeparated m

/-- The remote DNS store's host list: raw `"address domain"` tokens, in
order, as served by `GET /api/config/dns/hosts`. -/
abbrev Store := List Str

/-- A DNS record as the client parses it: IP and domain. -/
abbrev Rec := Str × Str

/-- The wire token `"IP DOMAIN"` built by `fmt.Sprintf("%s %s", ip, dom)`. -/
def recToken (ip dom : Str) : Str := ip ++ ' ' :: dom

/-- Record parsing in `ListRecords`: split each token on whitespace and
keep the first two fields; tokens with fewer than two fields are skipped. -/
def parseTok (t : Str) : Option Rec :=
  match goFields t with
  | a :: d :: _ => some (a, d)
  | _ => none

/-- The record list `ListRecords` returns for a given store state. -/
def parseRecords (s : Store) : List Rec := s.filterMap parseTok

/-- One Go map assignment `currentRecordMap[record.Domain] = record.IP`. -/
def recStep (m : Str → Option Str) (r : Rec) : Str → Option Str :=
  fun k => if k == r.2 then some r.1 else m k

/-- The `currentRecordMap` built by the reconcilers: domain to IP, later
list entries overwriting earlier ones exactly as repeated Go map
assignment does. -/
def recordMap (recs : List Rec) : Str → Option Str :=
  recs.foldl recStep (fun _ => none)

/-- A store-mutating wire call: `PUT` or `DELETE` of one raw token. -/
inductive Mut where
  | putTok (t : Str)
  | delTok (t : Str)
deriving DecidableEq, Repr

/-- Store-level effect of the `PUT /api/config/dns/hosts/{token}` endpoint.
Modelled from the spec: the store appends the entry to its host array
(section 6 of the spec; the store itself is external to the repository). -/
def storePut (s : Store) (t : Str) : Store := s ++ [t]

/-- Store-level effect of the `DELETE /api/config/dns/hosts/{token}`
endpoint.  Modelled from the spec: the store removes the matching entry
from its host array, and a missing entry (404) is already success for the
client. -/
def storeDel (s : Store) (t : Str) : Store := s.erase t

/-- Embedding of the client's `CreateRecord` as its effect on the store:
one `PUT` of the formatted token. -/
def createRecord (s : Store) (ip dom : Str) : Store × List Mut :=
  (storePut s (recToken ip dom), [.putTok (recToken ip dom)])

/-- Embedding of the client's `DeleteRecord` as its effect on the store:
list all records, scan linearly for the first entry whose domain matches,
reconstruct its exact `"IP DOMAIN"` token and issue one `DELETE` against
it; with no match the operation is a no-op success with no mutation. -/
def deleteRecord (s : Store) (dom : Str) : Store × List Mut :=
  match (parseRecords s).find? (fun r => r.2 == dom) with
  | none => (s, [])
  | some r => (storeDel s (recToken r.1 r.2), [.delTok (recToken r.1 r.2)])

/-- An error surfaced by a Pi-hole client operation: a bare structured
`APIError` carrying the HTTP status, a transport error (network failure or
timeout of the underlying request), or an error wrapped with
`fmt.Errorf("...: %w", err)` — as the client does to authentication
failures and to the internal `ListRecords` failure inside `DeleteRecord`. -/
inductive PErr where
  | api (status : Nat)
  | transport
  | wrapped (e : PErr)
deriving DecidableEq, Repr

/-- Embedding of `APIError.IsRetryable` (internal/pihole/client.go): every
status other than 400 Bad Request should trigger a retry. -/
def IsRetryable (status : Nat) : Bool := !(status == 400)

/-- The part of `ctrl.Result` the engine uses: an optional requeue delay in
seconds, plus whether an error was returned alongside it. -/
structure RResult where
  requeueAfter : Option Nat
  isErr : Bool
deriving DecidableEq, Repr

/-- Embedding of `handleAPIError` (shared by the Ingress reconciler and
reconcileRoute).  The source uses the direct type assertion
`err.(*pihole.APIError)`, which succeeds only on a bare `APIError`: only
then is a non-retryable status returned with no requeue and no error.
Wrapped errors — even wrapping an `APIError` — fail the assertion and fall
through to a 30-second requeue with the error, like transport errors. -/
def handleAPIError : PErr → RResult
  | .api s => if !IsRetryable s then ⟨none, false⟩ else ⟨some 30, true⟩
  | .transport => ⟨some 30, true⟩
  | .wrapped _ => ⟨some 30, true⟩

/-- A client-level store-mutating call issued by the engine. -/
inductive CCall where
  | create (ip dom : Str)
  | delete (dom : Str)
deriving DecidableEq, Repr

/-- Failure injection for client calls: the outcome of the n-th client
call of a reconcile (`none` means the call succeeds). -/
abbrev Oracle := Nat → Option PErr

/-- Mutable state threaded through one reconcile: the store, the
client-level mutating calls issued so far, and the client-call counter. -/
structure PhaseSt where
  store : Store
  calls : List CCall
  idx : Nat
deriving Repr

/-- One engine call to `PiholeClient.DeleteRecord`.  The call is recorded
even when it fails; a failing call leaves the store unchanged. -/
def clientDeleteCall (o : Oracle) (st : PhaseSt) (dom : Str) :
    Except (PErr × PhaseSt) PhaseSt :=
  match o st.idx with
  | some e => .error (e, ⟨st.store, st.calls ++ [.delete dom], st.idx + 1⟩)
  | none => .ok ⟨(deleteRecord st.store dom).1, st.calls ++ [.delete dom], st.idx + 1⟩

/-- One engine call to `PiholeClient.CreateRecord`. -/
def clientCreateCall (o : Oracle) (st : PhaseSt) (ip dom : Str) :
    Except (PErr × PhaseSt) PhaseSt :=
  match o st.idx with
  | some e => .error (e, ⟨st.store, st.calls ++ [.create ip dom], st.idx + 1⟩)
  | none => .ok ⟨(createRecord st.store ip dom).1, st.calls ++ [.create ip dom], st.idx + 1⟩

/-- The sync loop of the reconcilers: for each desired host, consult the
record map built from the initial list; a host bound to a different
address is deleted then recreated, an absent host is created, a host
already bound to the target address is skipped.  A store failure aborts
with `handleAPIError`. -/
def syncHosts (o : Oracle) (targetIP : Str) (m : Str → Option Str) :
    List Str → PhaseSt → Except (RResult × PhaseSt) PhaseSt
  | [], st => .ok st
  | host :: hs, st =>
    match m host with
    | some currentIP =>
      if currentIP == targetIP then syncHosts o targetIP m hs st
      else
        match clientDeleteCall o st host with
        | .error (e, st1) => .error (handleAPIError e, st1)
        | .ok st1 =>
          match clientCreateCall o st1 targetIP host with
          | .error (e, st2) => .error (handleAPIError e, st2)
          | .ok st2 => syncHosts o targetIP m hs st2
    | none =>
      match clientCreateCall o st targetIP host with
      | .error (e, st1) => .error (handleAPIError e, st1)
      | .ok st1 => syncHosts o targetIP m hs st1

/-- The prune loop of the reconcilers: every previously managed host that
is no longer desired is deleted from the store. -/
def pruneHosts (o : Oracle) (desired : List Str) :
    List Str → PhaseSt → Except (RResult × PhaseSt) PhaseSt
  | [], st => .ok st
  | host :: hs, st =>
    if desired.contains host then pruneHosts o desired hs st
    else
      match clientDeleteCall o st host with
      | .error (e, st1) => .error (handleAPIError e, st1)
      | .ok st1 => pruneHosts o desired hs st1

/-- Embedding of `updateManagedHosts` as its effect on the annotation map:
an empty host list removes the key entirely, otherwise the comma-joined
list is stored. -/
def updateManagedAnn (ann : Annotations) (hosts : List Str) : Annotations :=
  if hosts.isEmpty then delAnn ann annManagedHosts
  else setAnn ann annManagedHosts (joinComma hosts)

/-- Outcome of one reconcile: the controller result, the routing object as
persisted, the resulting store, and the client calls issued. -/
structure RunOut where
  result : RResult
  obj : RouteObj
  store : Store
  calls : List CCall
deriving Repr

/-- The record phases of a reconcile, entered once desired hosts and
target address are known: list the store (failure requeues after 30s),
sync desired records, prune stale managed records, then persist the new
managed set (the object-store write is modelled as reliable). -/
def recordsPhase (o : Oracle) (desiredHosts : List Str) (targetIP : Str)
    (obj : RouteObj) (store : Store) : RunOut :=
  match o 0 with
  | some _ => ⟨⟨some 30, true⟩, obj, store, []⟩
  | none =>
    let m := recordMap (parseRecords store)
    match syncHosts o targetIP m desiredHosts ⟨store, [], 1⟩ with
    | .error (r, st) => ⟨r, obj, st.store, st.calls⟩
    | .ok st1 =>
      match pruneHosts o desiredHosts (getManagedHosts obj.annotations) st1 with
      | .error (r, st) => ⟨r, obj, st.store, st.calls⟩
      | .ok st2 =>
        ⟨⟨none, false⟩, { obj with annotations := updateManagedAnn obj.annotations desiredHosts },
          st2.store, st2.calls⟩

/-- The cleanup loop of `handleDeletion` / `handleRouteDeletion`: delete
every managed host, aborting on the first store failure. -/
def cleanupDeletes (o : Oracle) :
    List Str → PhaseSt → Except (RResult × PhaseSt) PhaseSt
  | [], st => .ok st
  | host :: hs, st =>
    match clientDeleteCall o st host with
    | .error (e, st1) => .error (handleAPIError e, st1)
    | .ok st1 => cleanupDeletes o hs st1

/-- Embedding of `handleDeletion` / `handleRouteDeletion`: without the
finalizer nothing happens; with it, every host in the managed set is
deleted from the store, and only after all deletes succeed is the
finalizer removed and persisted.  A failing delete returns with the
finalizer and the annotations untouched. -/
def handleRouteDeletion (o : Oracle) (obj : RouteObj) (store : Store) : RunOut :=
  if !obj.finalizer then ⟨⟨none, false⟩, obj, store, []⟩
  else
    match cleanupDeletes o (getManagedHosts obj.annotations) ⟨store, [], 0⟩ with
    | .error (r, st) => ⟨r, obj, st.store, st.calls⟩
    | .ok st => ⟨⟨none, false⟩, { obj with finalizer := false }, st.store, st.calls⟩

/-- Embedding of the per-object reconcile (`Reconcile` in
ingress_controller.go and `reconcileRoute` shared by the Gateway route
reconcilers): deletion marker handling, opt-in check with cleanup on
opt-out, finalizer addition (the object-store update is modelled as
reliable and concurrency-free, so the re-fetched object equals the one
just written), desired-state computation, then the record phases. -/
def reconcileRoute (o : Oracle) (defaultTargetIP : Str) (obj : RouteObj)
    (store : Store) : RunOut :=
  if obj.deleting then handleRouteDeletion o obj store
  else if !hasRegistrationAnn obj.annotations then
    if obj.finalizer then handleRouteDeletion o obj store
    else ⟨⟨none, false⟩, obj, store, []⟩
  else
    let obj1 := if obj.finalizer then obj else { obj with finalizer := true }
    let desiredHosts := extractHosts obj
    if desiredHosts.isEmpty then ⟨⟨none, false⟩, obj1, store, []⟩
    else
      let targetIP := resolveTargetIP obj1.annotations defaultTargetIP
      if targetIP.isEmpty then ⟨⟨none, false⟩, obj1, store, []⟩
      else recordsPhase o desiredHosts targetIP obj1 store

/-- The cached Pi-hole session of `HTTPClient`: session id, CSRF token and
the instant (in seconds) until which the client treats it as valid. -/
structure Sess where
  sid : String
  csrf : String
  valid : Nat
deriving DecidableEq, Repr

/-- Response of the store to one `POST /api/auth` request. -/
inductive AuthResp where
  | ok (sid csrf : String) (validity : Nat)
  | unauthorized
  | failStatus (status : Nat)

/-- Response of the store to one `GET /api/config/dns/hosts` request. -/
structure ListResp where
  status : Nat
  hosts : List Str

/-- The HTTP behaviour of the store, one function per endpoint, indexed by
how many requests of that kind were made before. -/
structure HEnv where
  authB : Nat → AuthResp
  listB : Nat → ListResp
  createB : Nat → Nat
  deleteB : Nat → Nat

/-- HTTP-level client state: the cached session plus per-endpoint request
counters. -/
structure HSt where
  sess : Sess
  a : Nat
  l : Nat
  cr : Nat
  dl : Nat
deriving Repr

/-- Embedding of `HTTPClient.authenticate`: one `POST /api/auth`; on 200
the session is cached with expiry `now + validity*80/100` (the 80% safety
margin, integer division as in Go); a 401 is the terminal invalid-password
error; any other status becomes an `APIError`. -/
def authenticateM (env : HEnv) (now : Nat) (st : HSt) : Except PErr Unit × HSt :=
  match env.authB st.a with
  | .ok sid csrf v => (.ok (), { st with sess := ⟨sid, csrf, now + v * 80 / 100⟩, a := st.a + 1 })
  | .unauthorized => (.error (.api 401), { st with a := st.a + 1 })
  | .failStatus c => (.error (.api c), { st with a := st.a + 1 })

/-- The session-validity check of `ensureAuthenticated`:
`c.valid.After(time.Now()) && c.sid != ""`. -/
def sessionValid (s : Sess) (now : Nat) : Bool :=
  decide (now < s.valid) && !(s.sid == "")

/-- Embedding of `HTTPClient.ensureAuthenticated`: keep a valid session,
authenticate afresh otherwise. -/
def ensureAuthenticatedM (env : HEnv) (now : Nat) (st : HSt) : Except PErr Unit × HSt :=
  if sessionValid st.sess now then (.ok (), st) else authenticateM env now st

/-- Outcome of an HTTP-level `ListRecords`: the parsed records, an error,
or non-termination of the 401 retry recursion within the given fuel. -/
inductive ListOut where
  | ok (recs : List Rec)
  | fail (e : PErr)
  | diverged
deriving DecidableEq, Repr

/-- Embedding of `HTTPClient.ListRecords`: ensure authentication (a
failure there is returned wrapped, `"authentication failed: %w"`), issue
the `GET`; on 401 re-authenticate (failure wrapped,
`"re-authentication failed: %w"`) and recurse into the whole operation
(this recursion is exactly the source's `return c.ListRecords(ctx)` and is
bounded here only by fuel); on 200 parse the host tokens; any other status
is a bare `APIError`. -/
def listRecordsM (env : HEnv) (now : Nat) : Nat → HSt → ListOut × HSt
  | 0, st => (.diverged, st)
  | fuel + 1, st =>
    match ensureAuthenticatedM env now st with
    | (.error e, st1) => (.fail (.wrapped e), st1)
    | (.ok _, st1) =>
      let resp := env.listB st1.l
      let st2 := { st1 with l := st1.l + 1 }
      if resp.status == 401 then
        match authenticateM env now st2 with
        | (.error e, st3) => (.fail (.wrapped e), st3)
        | (.ok _, st3) => listRecordsM env now fuel st3
      else if resp.status == 200 then (.ok (parseRecords resp.hosts), st2)
      else (.fail (.api resp.status), st2)

/-- Outcome of an HTTP-level `CreateRecord` or `DeleteRecord`. -/
inductive UnitOut where
  | ok
  | fail (e : PErr)
  | diverged
deriving DecidableEq, Repr

/-- Embedding of `HTTPClient.CreateRecord`: ensure authentication
(failure wrapped), `PUT` the token; 401 re-authenticates (failure
wrapped) and recurses into the whole operation; 200, 201 and 204 are
success; anything else a bare `APIError`. -/
def createRecordM (env : HEnv) (now : Nat) : Nat → HSt → UnitOut × HSt
  | 0, st => (.diverged, st)
  | fuel + 1, st =>
    match ensureAuthenticatedM env now st with
    | (.error e, st1) => (.fail (.wrapped e), st1)
    | (.ok _, st1) =>
      let status := env.createB st1.cr
      let st2 := { st1 with cr := st1.cr + 1 }
      if status == 401 then
        match authenticateM env now st2 with
        | (.error e, st3) => (.fail (.wrapped e), st3)
        | (.ok _, st3) => createRecordM env now fuel st3
      else if status == 200 || status == 201 || status == 204 then (.ok, st2)
      else (.fail (.api status), st2)

/-- Embedding of `HTTPClient.DeleteRecord`: ensure authentication
(failure wrapped), list all records through the full `ListRecords`
operation — whose failure, bare `APIError` or not, is returned wrapped
with `"listing records to find entry: %w"` — then scan for the first
entry with the requested domain; no match is a no-op success; otherwise
`DELETE` the reconstructed token, where 401 re-authenticates (failure
wrapped) and recurses into the whole operation and 200, 204 and 404 are
success. -/
def deleteRecordM (env : HEnv) (now : Nat) (dom : Str) : Nat → HSt → UnitOut × HSt
  | 0, st => (.diverged, st)
  | fuel + 1, st =>
    match ensureAuthenticatedM env now st with
    | (.error e, st1) => (.fail (.wrapped e), st1)
    | (.ok _, st1) =>
      match listRecordsM env now (fuel + 1) st1 with
      | (.diverged, st2) => (.diverged, st2)
      | (.fail e, st2) => (.fail (.wrapped e), st2)
      | (.ok recs, st2) =>
        match recs.find? (fun r => r.2 == dom) with
        | none => (.ok, st2)
        | some _ =>
          let status := env.deleteB st2.dl
          let st3 := { st2 with dl := st2.dl + 1 }
          if status == 401 then
            match authenticateM env now st3 with
            | (.error e, st4) => (.fail (.wrapped e), st4)
            | (.ok _, st4) => deleteRecordM env now dom fuel st4
          else if status == 200 || status == 204 || status == 404 then (.ok, st3)
          else (.fail (.api status), st3)

/-- A store whose auth endpoint always succeeds (validity 100 seconds) but
whose record endpoints answer every request with 401 Unauthorized. -/
def envAlways401 : HEnv :=
  ⟨fun _ => .ok "stale-session" "csrf" 100, fun _ => ⟨401, []⟩, fun _ => 401, fun _ => 401⟩

/-- The oracle under which every store call succeeds. -/
def noFail : Oracle := fun _ => none

/-!  Helper lemmas shared by the claim theorems. -/

theorem find?_append_of_none {p : Rec → Bool} {l1 l2 : List Rec}
    (h : l1.find? p = none) : (l1 ++ l2).find? p = l2.find? p := by
  rw [List.find?_append, h, Option.none_or]

theorem mem_parseRecords_of_mem {t : Str} {s : Store} {r : Rec}
    (ht : t ∈ s) (hp : parseTok t = some r) : r ∈ parseRecords s :=
  List.mem_filterMap.mpr ⟨t, ht, hp⟩

theorem find?_parseRecords_none {s : Store} {dom : Str}
    (h : ∀ r ∈ parseRecords s, r.2 ≠ dom) :
    (parseRecords s).find? (fun r => r.2 == dom) = none := by
  apply List.find?_eq_none.mpr
  intro x hx hbeq
  exact h x hx (eq_of_beq hbeq)

/-!  Claim C3: store-error classification and requeue decisions. -/

/-- Claim C3 as amended: during a reconcile's create/delete phases, a 400
Bad Request that the client surfaces as a bare `APIError` (the 400
answered the create or delete request itself) never results in a
scheduled retry, while a 500-class response or a transport/timeout
failure always yields exactly one scheduled retry with the strictly
positive delay of 30 seconds; but an error the client wrapped — a 400
answering the internal list inside `DeleteRecord`, or an authentication
failure — fails `handleAPIError`'s type assertion and is requeued after
30 seconds whatever status it wraps. -/
theorem c3_retry_classification :
    (IsRetryable 400 = false ∧ handleAPIError (.api 400) = ⟨none, false⟩) ∧
    (∀ s : Nat, 500 ≤ s → s ≤ 599 →
      IsRetryable s = true ∧ handleAPIError (.api s) = ⟨some 30, true⟩ ∧ 0 < 30) ∧
    (handleAPIError .transport = ⟨some 30, true⟩ ∧ 0 < 30) ∧
    (∀ e : PErr, handleAPIError (.wrapped e) = ⟨some 30, true⟩ ∧ 0 < 30) := by
  refine ⟨⟨rfl, rfl⟩, ?_, ⟨rfl, by norm_num⟩, fun e => ⟨rfl, by norm_num⟩⟩
  intro s h5 h6
  have hne : (s == 400) = false := by
    apply beq_eq_false_iff_ne.mpr
    omega
  constructor
  · simp [IsRetryable, hne]
  · constructor
    · simp [handleAPIError, IsRetryable, hne]
    · norm_num

/-- Witness for C3 at the concrete server error 503. -/
theorem c3_retry_classification_witness :
    IsRetryable 503 = true ∧ handleAPIError (.api 503) = ⟨some 30, true⟩ ∧ 0 < 30 :=
  c3_retry_classification.2.1 503 (by norm_num) (by norm_num)

/-!  Claim C5: extractHosts behaviour. -/

/-- Claim C5: `extractHosts` with the override annotation
`"a.local, b.local ,"` yields `["a.local", "b.local"]` (whitespace trimmed,
entries empty after trimming dropped); with no override and spec hosts
`["x.local", "", "y.local"]` it yields `["x.local", "y.local"]` (empty
entries skipped); with the override present but equal to the empty string
it falls back to the spec-declared hosts. -/
theorem c5_extractHosts :
    extractHosts ⟨false, true, [(annHosts, str "a.local, b.local ,")], []⟩
      = [str "a.local", str "b.local"] ∧
    extractHosts ⟨false, true, [], [str "x.local", str "", str "y.local"]⟩
      = [str "x.local", str "y.local"] ∧
    extractHosts ⟨false, true, [(annHosts, str "")], [str "x.local", str "", str "y.local"]⟩
      = [str "x.local", str "y.local"] := by
  refine ⟨?_, ?_, ?_⟩ <;> decide

/-!  Claim C7: deleting a missing domain is a no-op success. -/

/-- Claim C7: for every domain not present among the parsed records of the
store, `DeleteRecord` succeeds while issuing zero store-mutating calls
beyond the initial list: the store is unchanged and no `DELETE` is sent. -/
theorem c7_delete_missing_noop (s : Store) (dom : Str)
    (h : ∀ r ∈ parseRecords s, r.2 ≠ dom) :
    deleteRecord s dom = (s, []) := by
  unfold deleteRecord
  rw [find?_parseRecords_none h]

/-- Witness for C7: deleting `missing.local` from the store
`["10.0.0.1 app.local"]`. -/
theorem c7_delete_missing_noop_witness :
    (∀ r ∈ parseRecords [str "10.0.0.1 app.local"], r.2 ≠ str "missing.local") ∧
    deleteRecord [str "10.0.0.1 app.local"] (str "missing.local")
      = ([str "10.0.0.1 app.local"], []) :=
  ⟨by decide, c7_delete_missing_noop _ _ (by decide)⟩

/-!  Claim C10: deletion with duplicate domains in the store. -/

/-- Claim C10: when the store holds several entries for one domain,
`DeleteRecord` removes exactly the first matching entry in list order,
reconstructing that entry's exact `"address domain"` token, succeeds, and
leaves every later entry for the same domain in the store. -/
theorem c10_delete_first_match (pre post : Store) (a dom : Str)
    (hpre : ∀ r ∈ parseRecords pre, r.2 ≠ dom)
    (htok : parseTok (recToken a dom) = some (a, dom)) :
    deleteRecord (pre ++ recToken a dom :: post) dom
      = (pre ++ post, [Mut.delTok (recToken a dom)]) := by
  unfold deleteRecord
  have hparse : parseRecords (pre ++ recToken a dom :: post)
      = parseRecords pre ++ (a, dom) :: parseRecords post := by
    unfold parseRecords
    rw [List.filterMap_append, List.filterMap_cons, htok]
  rw [hparse, find?_append_of_none (find?_parseRecords_none hpre), List.find?_cons]
  have hbeq : ((a, dom).2 == dom) = true := beq_iff_eq.mpr rfl
  simp only [hbeq]
  have hnm : recToken a dom ∉ pre := by
    intro hmem
    exact hpre (a, dom) (mem_parseRecords_of_mem hmem htok) rfl
  unfold storeDel
  rw [List.erase_append_right _ hnm, List.erase_cons_head]

/-- Witness for C10: the store `["1.1.1.1 app.local", "2.2.2.2 app.local"]`
holds two entries for `app.local`; deleting `app.local` removes only the
first and keeps the second. -/
theorem c10_delete_first_match_witness :
    deleteRecord ([] ++ recToken (str "1.1.1.1") (str "app.local") :: [str "2.2.2.2 app.local"])
        (str "app.local")
      = ([] ++ [str "2.2.2.2 app.local"], [Mut.delTok (recToken (str "1.1.1.1") (str "app.local"))]) :=
  c10_delete_first_match [] [str "2.2.2.2 app.local"] (str "1.1.1.1") (str "app.local")
    (by decide) (by decide)

/-!  Claim C4: address-override resolution. -/

/-- Counterexample to C4 as stated: `"::ffff:10.0.0.1"` is a non-empty
string that fails dotted-decimal IPv4 parsing and is a valid IPv6 literal,
yet `resolveTargetIP` returns it unchanged instead of signalling failure,
because Go's `To4` accepts IPv4-mapped IPv6 addresses. -/
theorem c4_counterexample :
    str "::ffff:10.0.0.1" ≠ [] ∧
    parseIPv4 (str "::ffff:10.0.0.1") = none ∧
    (parseIPv6 (str "::ffff:10.0.0.1")).isSome = true ∧
    resolveTargetIP [(annTargetIP, str "::ffff:10.0.0.1")] (str "192.168.1.100")
      = str "::ffff:10.0.0.1" := by
  exact ⟨by decide, by decide, by decide, by decide⟩

/-- Claim C4 as amended: with the override annotation present with value
`s`, a string `net.ParseIP` reads as dotted-decimal IPv4 is returned
exactly; a non-empty string that does not parse at all, or parses as an
IPv6 literal that is not IPv4-mapped (such as `"::1"`), yields the empty
string with no fallback to the default; a present-but-empty override, or
an absent one, yields the configured default address. -/
theorem c4_resolve_amended (ann : Annotations) (s dflt : Str) :
    (lookupAnn ann annTargetIP = some s →
      ((∀ b, parseIP s = some (.v4 b) → resolveTargetIP ann dflt = s) ∧
       (s ≠ [] → parseIP s = none → resolveTargetIP ann dflt = []) ∧
       (∀ b, s ≠ [] → parseIP s = some (.v6 b) → to4 (.v6 b) = none →
         resolveTargetIP ann dflt = []) ∧
       (s = [] → resolveTargetIP ann dflt = dflt))) ∧
    (lookupAnn ann annTargetIP = none → resolveTargetIP ann dflt = dflt) := by
  constructor
  · intro hs
    have hres : resolveTargetIP ann dflt
        = if !s.isEmpty then (if isValidIPv4 s then s else []) else dflt := by
      unfold resolveTargetIP
      rw [hs]
    refine ⟨?_, ?_, ?_, ?_⟩
    · intro b hb
      have hne : s.isEmpty = false := by
        cases s with
        | nil => simp [parseIP, parseIPGo] at hb
        | cons c t => rfl
      have hv : isValidIPv4 s = true := by
        unfold isValidIPv4
        rw [hb]
        rfl
      rw [hres, hne, hv]
      rfl
    · intro hne hb
      have he : s.isEmpty = false := by
        cases s with
        | nil => exact absurd rfl hne
        | cons c t => rfl
      have hv : isValidIPv4 s = false := by
        unfold isValidIPv4
        rw [hb]
      rw [hres, he, hv]
      rfl
    · intro b hne hb h4
      have he : s.isEmpty = false := by
        cases s with
        | nil => exact absurd rfl hne
        | cons c t => rfl
      have hv : isValidIPv4 s = false := by
        unfold isValidIPv4
        rw [hb]
        simp only [h4, Option.isSome_none]
      rw [hres, he, hv]
      rfl
    · intro hnil
      subst hnil
      rw [hres]
      rfl
  · intro hs
    unfold resolveTargetIP
    rw [hs]

/-- Witness for the amended C4: a dotted-decimal override is returned
exactly, `"::1"` is a hard failure, and an empty override falls back to
the default address. -/
theorem c4_resolve_amended_witness :
    resolveTargetIP [(annTargetIP, str "1.2.3.4")] (str "10.0.0.1") = str "1.2.3.4" ∧
    resolveTargetIP [(annTargetIP, str "::1")] (str "10.0.0.1") = [] ∧
    resolveTargetIP [(annTargetIP, str "")] (str "10.0.0.1") = str "10.0.0.1" :=
  ⟨((c4_resolve_amended [(annTargetIP, str "1.2.3.4")] (str "1.2.3.4") (str "10.0.0.1")).1
      (by decide)).1 [1, 2, 3, 4] (by decide),
   ((c4_resolve_amended [(annTargetIP, str "::1")] (str "::1") (str "10.0.0.1")).1
      (by decide)).2.2.1 [0, 0, 0, 0, 0, 0, 0, 0, 0, 0, 0, 0, 0, 0, 0, 1]
      (by decide) (by decide) (by decide),
   ((c4_resolve_amended [(annTargetIP, str "")] (str "") (str "10.0.0.1")).1
      (by decide)).2.2.2 (by decide)⟩

/-!  Claim C1: behaviour under repeated unauthorized responses. -/

theorem ensureAuthenticatedM_envAlways401_ok (now : Nat) (st : HSt) :
    ∃ st1, ensureAuthenticatedM envAlways401 now st = (.ok (), st1) := by
  by_cases h : sessionValid st.sess now
  · exact ⟨st, by simp [ensureAuthenticatedM, h]⟩
  · exact ⟨{ st with sess := ⟨"stale-session", "csrf", now + 100 * 80 / 100⟩, a := st.a + 1 },
      by simp [ensureAuthenticatedM, h, authenticateM, envAlways401]⟩

theorem listRecordsM_envAlways401_diverged :
    ∀ (fuel now : Nat) (st : HSt), (listRecordsM envAlways401 now fuel st).1 = .diverged := by
  intro fuel
  induction fuel with
  | zero => intro now st; rfl
  | succ n ih =>
    intro now st
    obtain ⟨st1, h1⟩ := ensureAuthenticatedM_envAlways401_ok now st
    unfold listRecordsM
    rw [h1]
    simp only [envAlways401, authenticateM, beq_self_eq_true, if_true]
    exact ih now _

theorem createRecordM_envAlways401_diverged :
    ∀ (fuel now : Nat) (st : HSt), (createRecordM envAlways401 now fuel st).1 = .diverged := by
  intro fuel
  induction fuel with
  | zero => intro now st; rfl
  | succ n ih =>
    intro now st
    obtain ⟨st1, h1⟩ := ensureAuthenticatedM_envAlways401_ok now st
    unfold createRecordM
    rw [h1]
    simp only [envAlways401, authenticateM, beq_self_eq_true, if_true]
    exact ih now _

theorem deleteRecordM_envAlways401_diverged :
    ∀ (fuel now : Nat) (dom : Str) (st : HSt),
      (deleteRecordM envAlways401 now dom fuel st).1 = .diverged := by
  intro fuel now dom st
  cases fuel with
  | zero => rfl
  | succ n =>
    obtain ⟨st1, h1⟩ := ensureAuthenticatedM_envAlways401_ok now st
    unfold deleteRecordM
    rw [h1]
    dsimp only
    rcases hl : listRecordsM envAlways401 now (n + 1) st1 with ⟨out, st2⟩
    have hout : out = .diverged := by
      have := listRecordsM_envAlways401_diverged (n + 1) now st1
      rw [hl] at this
      exact this
    subst hout
    rfl

/-- Claim C1 is a code bug: against a store whose auth endpoint succeeds
while every record endpoint answers 401 Unauthorized, each of
`ListRecords`, `CreateRecord` and `DeleteRecord` re-authenticates and
retries the whole operation after every 401 — for every retry budget the
operation has still neither returned a result nor surfaced an error, so
the client loops instead of returning the second unauthorized response to
the caller after exactly one re-authentication, contradicting the
source's own "try to re-authenticate once" comment. -/
theorem c1_unauthorized_retry_never_returns :
    ∀ (fuel now : Nat) (dom : Str) (st : HSt),
      (listRecordsM envAlways401 now fuel st).1 = .diverged ∧
      (createRecordM envAlways401 now fuel st).1 = .diverged ∧
      (deleteRecordM envAlways401 now dom fuel st).1 = .diverged :=
  fun fuel now dom st =>
    ⟨listRecordsM_envAlways401_diverged fuel now st,
     createRecordM_envAlways401_diverged fuel now st,
     deleteRecordM_envAlways401_diverged fuel now dom st⟩

/-!  Claim C8: session validity checking and the 80% expiry margin. -/

/-- A store that always authenticates successfully with validity 100. -/
def envAuthOk : HEnv :=
  ⟨fun _ => .ok "sid0" "csrf0" 100, fun _ => ⟨200, []⟩, fun _ => 200, fun _ => 200⟩

/-- A store that rejects every authentication attempt. -/
def envAuthFail : HEnv :=
  ⟨fun _ => .unauthorized, fun _ => ⟨200, []⟩, fun _ => 200, fun _ => 200⟩

/-- A client that has never authenticated: empty session id, zero expiry. -/
def hst0 : HSt := ⟨⟨"", "", 0⟩, 0, 0, 0, 0⟩

/-- Claim C8: a successful authentication at time `t` advertising validity
`v` caches expiry `t + v*80/100` (the 80% margin with integer floor); the
cached session counts as expired exactly once that instant is reached (or
the session id is empty, i.e. never established); `ensureAuthenticated`
re-authenticates exactly when the session is invalid and otherwise
proceeds without touching it; and each record operation authenticates
before proceeding, so an invalid session plus a rejected credential fails
the operation with the wrapped auth error before any record request. -/
theorem c8_session_lifecycle (env : HEnv) (t : Nat) (st : HSt) :
    (∀ sid csrf v, env.authB st.a = .ok sid csrf v →
      authenticateM env t st
        = (.ok (), { st with sess := ⟨sid, csrf, t + v * 80 / 100⟩, a := st.a + 1 })) ∧
    (∀ (sid csrf : String) (v now : Nat),
      sessionValid ⟨sid, csrf, t + v * 80 / 100⟩ now = false
        ↔ (t + v * 80 / 100 ≤ now ∨ sid = "")) ∧
    (∀ now, sessionValid st.sess now = false →
      ensureAuthenticatedM env now st = authenticateM env now st) ∧
    (∀ now, sessionValid st.sess now = true →
      ensureAuthenticatedM env now st = (.ok (), st)) ∧
    (∀ now fuel, sessionValid st.sess now = false → env.authB st.a = .unauthorized →
      (listRecordsM env now (fuel + 1) st).1 = .fail (.wrapped (.api 401)) ∧
      (createRecordM env now (fuel + 1) st).1 = .fail (.wrapped (.api 401)) ∧
      (∀ dom, (deleteRecordM env now dom (fuel + 1) st).1 = .fail (.wrapped (.api 401)))) := by
  refine ⟨?_, ?_, ?_, ?_, ?_⟩
  · intro sid csrf v h
    unfold authenticateM
    rw [h]
  · intro sid csrf v now
    simp [sessionValid]
    constructor
    · intro h
      by_cases hs : sid = ""
      · exact Or.inr hs
      · exact Or.inl (le_of_not_lt fun hlt => by simp [hlt, hs] at h)
    · intro h
      rcases h with h | h
      · simp [Nat.not_lt.mpr h]
      · simp [h]
  · intro now h
    simp [ensureAuthenticatedM, h]
  · intro now h
    simp [ensureAuthenticatedM, h]
  · intro now fuel h hu
    have hens : ensureAuthenticatedM env now st = (.error (.api 401), { st with a := st.a + 1 }) := by
      simp [ensureAuthenticatedM, h, authenticateM, hu]
    refine ⟨?_, ?_, ?_⟩
    · unfold listRecordsM
      rw [hens]
    · unfold createRecordM
      rw [hens]
    · intro dom
      unfold deleteRecordM
      rw [hens]

/-- Witness for C8 at concrete stores and times: authentication at time 5
with validity 100 caches expiry 85; the session is expired at 85 and not
before; an expired client with a rejected credential fails every record
operation with the 401 auth error. -/
theorem c8_session_lifecycle_witness :
    authenticateM envAuthOk 5 hst0
      = (.ok (), { hst0 with sess := ⟨"sid0", "csrf0", 5 + 100 * 80 / 100⟩, a := 1 }) ∧
    (sessionValid ⟨"sid0", "csrf0", 5 + 100 * 80 / 100⟩ 85 = false
      ↔ (5 + 100 * 80 / 100 ≤ 85 ∨ "sid0" = "")) ∧
    ensureAuthenticatedM envAuthOk 7 hst0 = authenticateM envAuthOk 7 hst0 ∧
    (listRecordsM envAuthFail 0 1 hst0).1 = .fail (.wrapped (.api 401)) :=
  ⟨(c8_session_lifecycle envAuthOk 5 hst0).1 "sid0" "csrf0" 100 rfl,
   (c8_session_lifecycle envAuthOk 5 hst0).2.1 "sid0" "csrf0" 100 85,
   (c8_session_lifecycle envAuthOk 7 hst0).2.2.1 7 rfl,
   ((c8_session_lifecycle envAuthFail 0 hst0).2.2.2.2 0 0 rfl rfl).1⟩

/-!  Claim C3, counterexample to the original statement. -/

/-- A store that authenticates fine but answers every list request with
400 Bad Request. -/
def envList400 : HEnv :=
  ⟨fun _ => .ok "sid0" "csrf0" 100, fun _ => ⟨400, []⟩, fun _ => 200, fun _ => 200⟩

/-- A registered object whose desired host `app.local` is already bound
and whose managed set still holds `old.local`, so the reconcile's prune
phase issues one delete (client call index 1, after the list at index 0). -/
def c3Obj : RouteObj :=
  ⟨false, true,
    [(annRegister, str "true"), (annHosts, str "app.local"),
     (annManagedHosts, str "old.local")], []⟩

/-- Failure injection for the C3 counterexample: the prune-phase delete
(client call 1) fails with the wrapped 400 that `DeleteRecord` surfaces
when its internal list gets a 400. -/
def c3Oracle : Oracle := fun i => if i == 1 then some (.wrapped (.api 400)) else none

/-- Counterexample to C3 as stated: a 400 Bad Request answered to the
internal list inside a delete-phase `DeleteRecord` is surfaced wrapped
(`"listing records to find entry: %w"`), fails `handleAPIError`'s bare
type assertion although 400 is classified non-retryable, and the
reconcile schedules a 30-second retry — a 400-class store response during
the delete phase that does result in a scheduled retry. -/
theorem c3_counterexample :
    IsRetryable 400 = false ∧
    (deleteRecordM envList400 0 (str "app.local") 1 hst0).1 = .fail (.wrapped (.api 400)) ∧
    handleAPIError (.wrapped (.api 400)) = ⟨some 30, true⟩ ∧
    (reconcileRoute c3Oracle (str "1.2.3.4") c3Obj
        [str "1.2.3.4 app.local", str "5.6.7.8 old.local"]).result = ⟨some 30, true⟩ := by
  exact ⟨rfl, by decide, rfl, by decide⟩

/-!  Claim C2: the engine only deletes managed or desired domains. -/

/-- The state carried out of a client call, successful or not. -/
def cstSt : Except (PErr × PhaseSt) PhaseSt → PhaseSt
  | .ok st => st
  | .error (_, st) => st

/-- The calls recorded by an engine phase, successful or aborted. -/
def exCalls : Except (RResult × PhaseSt) PhaseSt → List CCall
  | .ok st => st.calls
  | .error (_, st) => st.calls

theorem clientDeleteCall_calls (o : Oracle) (st : PhaseSt) (dom : Str) :
    (cstSt (clientDeleteCall o st dom)).calls = st.calls ++ [CCall.delete dom] := by
  unfold clientDeleteCall
  cases o st.idx <;> rfl

theorem clientCreateCall_calls (o : Oracle) (st : PhaseSt) (ip dom : Str) :
    (cstSt (clientCreateCall o st ip dom)).calls = st.calls ++ [CCall.create ip dom] := by
  unfold clientCreateCall
  cases o st.idx <;> rfl

theorem syncHosts_delete_mem (o : Oracle) (A : Str) (m : Str → Option Str) :
    ∀ (hs : List Str) (st : PhaseSt) (d : Str),
      CCall.delete d ∈ exCalls (syncHosts o A m hs st) →
      CCall.delete d ∈ st.calls ∨ d ∈ hs := by
  intro hs
  induction hs with
  | nil =>
    intro st d h
    exact Or.inl h
  | cons host t ih =>
    intro st d h
    unfold syncHosts at h
    cases hm : m host with
    | some ip =>
      rw [hm] at h
      dsimp only at h
      by_cases hip : (ip == A) = true
      · rw [if_pos hip] at h
        rcases ih st d h with h1 | h1
        · exact Or.inl h1
        · exact Or.inr (List.mem_cons_of_mem _ h1)
      · rw [if_neg hip] at h
        cases hc : clientDeleteCall o st host with
        | error p =>
          obtain ⟨e, st1⟩ := p
          rw [hc] at h
          dsimp only [exCalls] at h
          have h1 := clientDeleteCall_calls o st host
          rw [hc] at h1
          simp only [cstSt] at h1
          rw [h1] at h
          rcases List.mem_append.mp h with h2 | h2
          · exact Or.inl h2
          · simp only [List.mem_singleton, CCall.delete.injEq] at h2
            exact Or.inr (h2 ▸ List.mem_cons_self _ _)
        | ok st1 =>
          rw [hc] at h
          dsimp only at h
          have h1 := clientDeleteCall_calls o st host
          rw [hc] at h1
          simp only [cstSt] at h1
          cases hc2 : clientCreateCall o st1 A host with
          | error p =>
            obtain ⟨e2, st2⟩ := p
            rw [hc2] at h
            dsimp only [exCalls] at h
            have h2 := clientCreateCall_calls o st1 A host
            rw [hc2] at h2
            simp only [cstSt] at h2
            rw [h2, h1] at h
            rcases List.mem_append.mp h with h3 | h3
            · rcases List.mem_append.mp h3 with h4 | h4
              · exact Or.inl h4
              · simp only [List.mem_singleton, CCall.delete.injEq] at h4
                exact Or.inr (h4 ▸ List.mem_cons_self _ _)
            · simp at h3
          | ok st2 =>
            rw [hc2] at h
            dsimp only at h
            have h2 := clientCreateCall_calls o st1 A host
            rw [hc2] at h2
            simp only [cstSt] at h2
            rcases ih st2 d h with h3 | h3
            · rw [h2, h1] at h3
              rcases List.mem_append.mp h3 with h4 | h4
              · rcases List.mem_append.mp h4 with h5 | h5
                · exact Or.inl h5
                · simp only [List.mem_singleton, CCall.delete.injEq] at h5
                  exact Or.inr (h5 ▸ List.mem_cons_self _ _)
              · simp at h4
            · exact Or.inr (List.mem_cons_of_mem _ h3)
    | none =>
      rw [hm] at h
      dsimp only at h
      cases hc : clientCreateCall o st A host with
      | error p =>
        obtain ⟨e, st1⟩ := p
        rw [hc] at h
        dsimp only [exCalls] at h
        have h1 := clientCreateCall_calls o st A host
        rw [hc] at h1
        simp only [cstSt] at h1
        rw [h1] at h
        rcases List.mem_append.mp h with h2 | h2
        · exact Or.inl h2
        · simp at h2
      | ok st1 =>
        rw [hc] at h
        dsimp only at h
        have h1 := clientCreateCall_calls o st A host
        rw [hc] at h1
        simp only [cstSt] at h1
        rcases ih st1 d h with h2 | h2
        · rw [h1] at h2
          rcases List.mem_append.mp h2 with h3 | h3
          · exact Or.inl h3
          · simp at h3
        · exact Or.inr (List.mem_cons_of_mem _ h2)

theorem pruneHosts_delete_mem (o : Oracle) (desired : List Str) :
    ∀ (hs : List Str) (st : PhaseSt) (d : Str),
      CCall.delete d ∈ exCalls (pruneHosts o desired hs st) →
      CCall.delete d ∈ st.calls ∨ d ∈ hs := by
  intro hs
  induction hs with
  | nil =>
    intro st d h
    exact Or.inl h
  | cons host t ih =>
    intro st d h
    unfold pruneHosts at h
    by_cases hcon : (desired.contains host) = true
    · rw [if_pos hcon] at h
      rcases ih st d h with h1 | h1
      · exact Or.inl h1
      · exact Or.inr (List.mem_cons_of_mem _ h1)
    · rw [if_neg hcon] at h
      cases hc : clientDeleteCall o st host with
      | error p =>
        obtain ⟨e, st1⟩ := p
        rw [hc] at h
        dsimp only [exCalls] at h
        have h1 := clientDeleteCall_calls o st host
        rw [hc] at h1
        simp only [cstSt] at h1
        rw [h1] at h
        rcases List.mem_append.mp h with h2 | h2
        · exact Or.inl h2
        · simp only [List.mem_singleton, CCall.delete.injEq] at h2
          exact Or.inr (h2 ▸ List.mem_cons_self _ _)
      | ok st1 =>
        rw [hc] at h
        dsimp only at h
        have h1 := clientDeleteCall_calls o st host
        rw [hc] at h1
        simp only [cstSt] at h1
        rcases ih st1 d h with h2 | h2
        · rw [h1] at h2
          rcases List.mem_append.mp h2 with h3 | h3
          · exact Or.inl h3
          · simp only [List.mem_singleton, CCall.delete.injEq] at h3
            exact Or.inr (h3 ▸ List.mem_cons_self _ _)
        · exact Or.inr (List.mem_cons_of_mem _ h2)

theorem cleanupDeletes_delete_mem (o : Oracle) :
    ∀ (hs : List Str) (st : PhaseSt) (d : Str),
      CCall.delete d ∈ exCalls (cleanupDeletes o hs st) →
      CCall.delete d ∈ st.calls ∨ d ∈ hs := by
  intro hs
  induction hs with
  | nil =>
    intro st d h
    exact Or.inl h
  | cons host t ih =>
    intro st d h
    unfold cleanupDeletes at h
    cases hc : clientDeleteCall o st host with
    | error p =>
      obtain ⟨e, st1⟩ := p
      rw [hc] at h
      dsimp only [exCalls] at h
      have h1 := clientDeleteCall_calls o st host
      rw [hc] at h1
      simp only [cstSt] at h1
      rw [h1] at h
      rcases List.mem_append.mp h with h2 | h2
      · exact Or.inl h2
      · simp only [List.mem_singleton, CCall.delete.injEq] at h2
        exact Or.inr (h2 ▸ List.mem_cons_self _ _)
    | ok st1 =>
      rw [hc] at h
      dsimp only at h
      have h1 := clientDeleteCall_calls o st host
      rw [hc] at h1
      simp only [cstSt] at h1
      rcases ih st1 d h with h2 | h2
      · rw [h1] at h2
        rcases List.mem_append.mp h2 with h3 | h3
        · exact Or.inl h3
        · simp only [List.mem_singleton, CCall.delete.injEq] at h3
          exact Or.inr (h3 ▸ List.mem_cons_self _ _)
      · exact Or.inr (List.mem_cons_of_mem _ h2)

theorem recordsPhase_delete_mem (o : Oracle) (H : List Str) (A : Str)
    (obj : RouteObj) (store : Store) (d : Str)
    (h : CCall.delete d ∈ (recordsPhase o H A obj store).calls) :
    d ∈ H ∨ d ∈ getManagedHosts obj.annotations := by
  unfold recordsPhase at h
  cases ho : o 0 with
  | some e =>
    rw [ho] at h
    simp at h
  | none =>
    rw [ho] at h
    dsimp only at h
    cases hs : syncHosts o A (recordMap (parseRecords store)) H ⟨store, [], 1⟩ with
    | error p =>
      obtain ⟨r, st1⟩ := p
      rw [hs] at h
      dsimp only at h
      have := syncHosts_delete_mem o A (recordMap (parseRecords store)) H ⟨store, [], 1⟩ d
      rw [hs] at this
      rcases this h with h1 | h1
      · simp at h1
      · exact Or.inl h1
    | ok st1 =>
      rw [hs] at h
      dsimp only at h
      have hsync := syncHosts_delete_mem o A (recordMap (parseRecords store)) H ⟨store, [], 1⟩ d
      rw [hs] at hsync
      cases hp : pruneHosts o H (getManagedHosts obj.annotations) st1 with
      | error p =>
        obtain ⟨r, st2⟩ := p
        rw [hp] at h
        dsimp only at h
        have hprune := pruneHosts_delete_mem o H (getManagedHosts obj.annotations) st1 d
        rw [hp] at hprune
        rcases hprune h with h1 | h1
        · rcases hsync h1 with h2 | h2
          · simp at h2
          · exact Or.inl h2
        · exact Or.inr h1
      | ok st2 =>
        rw [hp] at h
        dsimp only at h
        have hprune := pruneHosts_delete_mem o H (getManagedHosts obj.annotations) st1 d
        rw [hp] at hprune
        rcases hprune h with h1 | h1
        · rcases hsync h1 with h2 | h2
          · simp at h2
          · exact Or.inl h2
        · exact Or.inr h1

theorem handleRouteDeletion_delete_mem (o : Oracle) (obj : RouteObj) (store : Store) (d : Str)
    (h : CCall.delete d ∈ (handleRouteDeletion o obj store).calls) :
    d ∈ getManagedHosts obj.annotations := by
  unfold handleRouteDeletion at h
  by_cases hf : (!obj.finalizer) = true
  · rw [if_pos hf] at h
    simp at h
  · rw [if_neg hf] at h
    cases hc : cleanupDeletes o (getManagedHosts obj.annotations) ⟨store, [], 0⟩ with
    | error p =>
      obtain ⟨r, st1⟩ := p
      rw [hc] at h
      dsimp only at h
      have := cleanupDeletes_delete_mem o (getManagedHosts obj.annotations) ⟨store, [], 0⟩ d
      rw [hc] at this
      rcases this h with h1 | h1
      · simp at h1
      · exact h1
    | ok st1 =>
      rw [hc] at h
      dsimp only at h
      have := cleanupDeletes_delete_mem o (getManagedHosts obj.annotations) ⟨store, [], 0⟩ d
      rw [hc] at this
      rcases this h with h1 | h1
      · simp at h1
      · exact h1

/-- A registered object with managed host `old.local` and desired override
host `app.local`, used to drive a reconcile that issues a delete. -/
def c2WitnessObj : RouteObj :=
  ⟨false, true,
    [(annRegister, str "true"), (annHosts, str "app.local"),
     (annManagedHosts, str "old.local")], []⟩

/-- Claim C2: every `DeleteRecord` call issued during a reconcile — by the
sync phase, the prune phase, or the deletion cleanup — targets a domain
that was in the object's managed-hosts annotation at the start of the
reconcile or is among the reconcile's freshly extracted desired hosts
(the newly computed managed set). -/
theorem c2_deletes_managed_or_desired (o : Oracle) (dflt : Str) (obj : RouteObj)
    (store : Store) (d : Str)
    (h : CCall.delete d ∈ (reconcileRoute o dflt obj store).calls) :
    d ∈ getManagedHosts obj.annotations ∨ d ∈ extractHosts obj := by
  unfold reconcileRoute at h
  by_cases hdel : obj.deleting = true
  · rw [if_pos hdel] at h
    exact Or.inl (handleRouteDeletion_delete_mem o obj store d h)
  · rw [if_neg hdel] at h
    by_cases hreg : (!hasRegistrationAnn obj.annotations) = true
    · rw [if_pos hreg] at h
      by_cases hf : obj.finalizer = true
      · rw [if_pos hf] at h
        exact Or.inl (handleRouteDeletion_delete_mem o obj store d h)
      · rw [if_neg hf] at h
        simp at h
    · rw [if_neg hreg] at h
      dsimp only at h
      by_cases hH : (extractHosts obj).isEmpty = true
      · rw [if_pos hH] at h
        simp at h
      · rw [if_neg hH] at h
        by_cases hA : (resolveTargetIP (if obj.finalizer then obj
            else { obj with finalizer := true }).annotations dflt).isEmpty = true
        · rw [if_pos hA] at h
          simp at h
        · rw [if_neg hA] at h
          have hmem := recordsPhase_delete_mem o (extractHosts obj)
            (resolveTargetIP (if obj.finalizer then obj
              else { obj with finalizer := true }).annotations dflt)
            (if obj.finalizer then obj else { obj with finalizer := true }) store d h
          have hann : (if obj.finalizer then obj
              else { obj with finalizer := true }).annotations = obj.annotations := by
            by_cases hf : obj.finalizer = true <;> simp [hf]
          rw [hann] at hmem
          exact hmem.symm

/-- Witness for C2: a registered object whose managed set is `old.local`
and whose override hosts are `app.local`, against a store binding
`old.local`; the reconcile issues a delete of `old.local`, which the
theorem places in the prior managed set or the desired set. -/
theorem c2_deletes_managed_or_desired_witness :
    str "old.local" ∈ getManagedHosts c2WitnessObj.annotations ∨
    str "old.local" ∈ extractHosts c2WitnessObj :=
  c2_deletes_managed_or_desired noFail (str "10.0.0.1") c2WitnessObj
    [str "5.6.7.8 old.local"] (str "old.local") (by decide)

/-!  Claim C9: finalizer removal only after complete cleanup. -/

theorem clientDeleteCall_ok_facts {o : Oracle} {st st1 : PhaseSt} {dom : Str}
    (h : clientDeleteCall o st dom = .ok st1) :
    o st.idx = none ∧ st1.idx = st.idx + 1 := by
  unfold clientDeleteCall at h
  cases ho : o st.idx with
  | some e =>
    rw [ho] at h
    simp at h
  | none =>
    rw [ho] at h
    simp only [Except.ok.injEq] at h
    exact ⟨rfl, by rw [← h]⟩

theorem cleanupDeletes_ok_idx (o : Oracle) :
    ∀ (hs : List Str) (st st1 : PhaseSt), cleanupDeletes o hs st = .ok st1 →
      ∀ j, j < hs.length → o (st.idx + j) = none := by
  intro hs
  induction hs with
  | nil =>
    intro st st1 _ j hj
    exact absurd hj (by simp)
  | cons host t ih =>
    intro st st1 h j hj
    unfold cleanupDeletes at h
    cases hc : clientDeleteCall o st host with
    | error p =>
      obtain ⟨e, st2⟩ := p
      rw [hc] at h
      simp at h
    | ok st2 =>
      rw [hc] at h
      dsimp only at h
      obtain ⟨ho, hidx⟩ := clientDeleteCall_ok_facts hc
      cases j with
      | zero => simpa using ho
      | succ j2 =>
        have hlt : j2 < t.length := by
          simpa using Nat.lt_of_succ_lt_succ hj
        have := ih st2 st1 h j2 hlt
        rw [hidx] at this
        have harith : st.idx + (j2 + 1) = st.idx + 1 + j2 := by omega
        rw [harith]
        exact this

/-- Claim C9: in a reconcile of an object marked for deletion that carries
the finalizer, the finalizer ends up removed only when the delete of every
hostname in the managed set succeeded; if any of those deletes fails, the
reconcile returns with the finalizer still present and the annotation map
(hence the managed-set annotation) untouched, so a later retry still
observes the pending cleanup. -/
theorem c9_finalizer_after_cleanup (o : Oracle) (dflt : Str) (obj : RouteObj) (store : Store)
    (hdel : obj.deleting = true) (hfin : obj.finalizer = true) :
    ((reconcileRoute o dflt obj store).obj.finalizer = false →
      ∀ j, j < (getManagedHosts obj.annotations).length → o j = none) ∧
    ((∃ j, j < (getManagedHosts obj.annotations).length ∧ o j ≠ none) →
      (reconcileRoute o dflt obj store).obj.finalizer = true ∧
      (reconcileRoute o dflt obj store).obj.annotations = obj.annotations) := by
  have hroute : reconcileRoute o dflt obj store = handleRouteDeletion o obj store := by
    unfold reconcileRoute
    rw [hdel]
    rfl
  rw [hroute]
  unfold handleRouteDeletion
  rw [hfin]
  simp only [Bool.not_true, Bool.false_eq_true, if_false]
  cases hc : cleanupDeletes o (getManagedHosts obj.annotations) ⟨store, [], 0⟩ with
  | error p =>
    obtain ⟨r, st1⟩ := p
    dsimp only
    constructor
    · intro hfalse
      rw [hfin] at hfalse
      cases hfalse
    · intro _
      exact ⟨hfin, rfl⟩
  | ok st1 =>
    dsimp only
    constructor
    · intro _ j hj
      have := cleanupDeletes_ok_idx o (getManagedHosts obj.annotations) ⟨store, [], 0⟩ st1 hc j hj
      simpa using this
    · rintro ⟨j, hj, hne⟩
      have := cleanupDeletes_ok_idx o (getManagedHosts obj.annotations) ⟨store, [], 0⟩ st1 hc j hj
      simp at this
      exact absurd this hne

/-- An object marked for deletion, with the finalizer and two managed
hosts, used in the C9 witness. -/
def c9WitnessObj : RouteObj :=
  ⟨true, true, [(annManagedHosts, str "a.local,b.local")], []⟩

/-- An oracle whose first client call fails with a transport error. -/
def failFirstCall : Oracle := fun i => if i == 0 then some .transport else none

/-- Witness for C9: with the first cleanup delete failing, the reconcile
keeps the finalizer and leaves the annotations untouched. -/
theorem c9_finalizer_after_cleanup_witness :
    (reconcileRoute failFirstCall (str "10.0.0.1") c9WitnessObj
        [str "1.1.1.1 a.local"]).obj.finalizer = true ∧
    (reconcileRoute failFirstCall (str "10.0.0.1") c9WitnessObj
        [str "1.1.1.1 a.local"]).obj.annotations = c9WitnessObj.annotations :=
  (c9_finalizer_after_cleanup failFirstCall (str "10.0.0.1") c9WitnessObj
      [str "1.1.1.1 a.local"] rfl rfl).2 ⟨0, by decide, by decide⟩

/-!  Claim C6: idempotence of a repeated reconcile. -/

/-- A registered object whose hosts override is the single hostname
`"a b"` (a hostname containing a space, as the override annotation
permits). -/
def c6Obj : RouteObj :=
  ⟨false, true, [(annRegister, str "true"), (annHosts, str "a b")], []⟩

/-- First reconcile of `c6Obj` against an empty store. -/
def c6Run1 : RunOut := reconcileRoute noFail (str "1.2.3.4") c6Obj []

/-- Second reconcile with unchanged desired state and unchanged store. -/
def c6Run2 : RunOut := reconcileRoute noFail (str "1.2.3.4") c6Run1.obj c6Run1.store

/-- Counterexample to C6 as stated: with the hostname list `["a b"]`
(reachable through the hosts override annotation) and target address
`1.2.3.4`, the desired state is unchanged between the two reconciles and
the store is untouched in between, yet the second reconcile issues a
store-mutating create call again, because the space inside the hostname
does not survive the store's space-separated `"IP DOMAIN"` wire format. -/
theorem c6_counterexample :
    extractHosts c6Obj = [str "a b"] ∧
    extractHosts c6Run1.obj = [str "a b"] ∧
    resolveTargetIP c6Obj.annotations (str "1.2.3.4") = str "1.2.3.4" ∧
    resolveTargetIP c6Run1.obj.annotations (str "1.2.3.4") = str "1.2.3.4" ∧
    c6Run1.store = c6Run1.store ∧
    c6Run2.calls = [CCall.create (str "1.2.3.4") (str "a b")] := by
  exact ⟨by decide, by decide, by decide, by decide, rfl, by decide⟩

/-- A hostname that survives both wire formats: non-empty, no whitespace
(the store's token separator) and no comma (the managed-set separator). -/
def hostClean (h : Str) : Bool :=
  !h.isEmpty && h.all (fun c => !goIsSpace c && !(c == ','))

/-- An address that survives the store's token format: non-empty and free
of whitespace (true of every IPv4 literal). -/
def addrClean (a : Str) : Bool :=
  !a.isEmpty && a.all (fun c => !goIsSpace c)

/-- Domain lookup against a store state, exactly the `currentRecordMap`
lookup a reconciler performs after listing it. -/
def domLookup (S : Store) (k : Str) : Option Str :=
  recordMap (parseRecords S) k

theorem splitOnP_ne_nil (p : Char → Bool) : ∀ s : Str, splitOnP p s ≠ [] := by
  intro s
  induction s with
  | nil => simp [splitOnP]
  | cons c t ih =>
    unfold splitOnP
    by_cases h : p c = true
    · simp [h]
    · simp only [h]
      cases hs : splitOnP p t with
      | nil => simp
      | cons g gs => simp

theorem splitOnP_no_sep (p : Char → Bool) :
    ∀ s : Str, (∀ c ∈ s, p c = false) → splitOnP p s = [s] := by
  intro s
  induction s with
  | nil => intro _; rfl
  | cons c t ih =>
    intro h
    rw [splitOnP.eq_2, h c (List.mem_cons_self _ _),
      ih (fun x hx => h x (List.mem_cons_of_mem _ hx))]
    simp

theorem splitOnP_append_sep (p : Char → Bool) :
    ∀ (x y : Str) (c0 : Char), (∀ c ∈ x, p c = false) → p c0 = true →
      splitOnP p (x ++ c0 :: y) = x :: splitOnP p y := by
  intro x
  induction x with
  | nil =>
    intro y c0 _ hc0
    simp only [List.nil_append]
    rw [splitOnP.eq_2, hc0]
    simp
  | cons c t ih =>
    intro y c0 hx hc0
    simp only [List.cons_append]
    rw [splitOnP.eq_2, hx c (List.mem_cons_self _ _),
      ih y c0 (fun d hd => hx d (List.mem_cons_of_mem _ hd)) hc0]
    simp

theorem splitOnP_mem_no_sep (p : Char → Bool) :
    ∀ (s : Str) (g : Str), g ∈ splitOnP p s → ∀ c ∈ g, p c = false := by
  intro s
  induction s with
  | nil =>
    intro g hg c hc
    simp [splitOnP] at hg
    subst hg
    simp at hc
  | cons a t ih =>
    intro g hg c hc
    unfold splitOnP at hg
    by_cases ha : p a = true
    · rw [if_pos ha] at hg
      rcases List.mem_cons.mp hg with h1 | h1
      · subst h1
        simp at hc
      · exact ih g h1 c hc
    · rw [if_neg ha] at hg
      cases hs : splitOnP p t with
      | nil => exact absurd hs (splitOnP_ne_nil p t)
      | cons g0 gs =>
        rw [hs] at hg
        rcases List.mem_cons.mp hg with h1 | h1
        · subst h1
          rcases List.mem_cons.mp hc with h2 | h2
          · subst h2
            simpa using ha
          · exact ih g0 (hs ▸ List.mem_cons_self _ _) c h2
        · exact ih g (hs ▸ List.mem_cons_of_mem _ h1) c hc

theorem dropWhile_no_p (p : Char → Bool) :
    ∀ s : Str, (∀ c ∈ s, p c = false) → s.dropWhile p = s := by
  intro s h
  cases s with
  | nil => rfl
  | cons c t => simp [List.dropWhile_cons, h c (List.mem_cons_self _ _)]

theorem trimSpace_clean (s : Str) (h : ∀ c ∈ s, goIsSpace c = false) :
    trimSpace s = s := by
  unfold trimSpace
  rw [dropWhile_no_p goIsSpace s h]
  rw [dropWhile_no_p goIsSpace s.reverse (fun c hc => h c (List.mem_reverse.mp hc))]
  exact List.reverse_reverse s

theorem hostClean_no_ws {h : Str} (hc : hostClean h = true) :
    ∀ c ∈ h, goIsSpace c = false := by
  intro c hmem
  simp only [hostClean, Bool.and_eq_true, List.all_eq_true] at hc
  have := hc.2 c hmem
  simp only [Bool.and_eq_true] at this
  simpa using this.1

theorem hostClean_no_comma {h : Str} (hc : hostClean h = true) :
    ∀ c ∈ h, (c == ',') = false := by
  intro c hmem
  simp only [hostClean, Bool.and_eq_true, List.all_eq_true] at hc
  have := hc.2 c hmem
  simp only [Bool.and_eq_true] at this
  simpa using this.2

theorem hostClean_ne_nil {h : Str} (hc : hostClean h = true) : h.isEmpty = false := by
  simp only [hostClean, Bool.and_eq_true] at hc
  simpa using hc.1

theorem joinComma_roundtrip :
    ∀ H : List Str, (∀ h ∈ H, hostClean h = true) →
      parseCommaSeparated (joinComma H) = H := by
  intro H
  induction H with
  | nil => intro _; rfl
  | cons h t ih =>
    intro hcl
    have hch := hcl h (List.mem_cons_self _ _)
    cases t with
    | nil =>
      unfold joinComma parseCommaSeparated splitOnChar
      rw [splitOnP_no_sep _ h (hostClean_no_comma hch)]
      simp only [List.map_cons, List.map_nil, List.filter]
      rw [trimSpace_clean h (hostClean_no_ws hch)]
      simp [hostClean_ne_nil hch]
    | cons h2 t2 =>
      have hstep : joinComma (h :: h2 :: t2) = h ++ ',' :: joinComma (h2 :: t2) := rfl
      unfold parseCommaSeparated splitOnChar
      rw [hstep]
      rw [splitOnP_append_sep _ h (joinComma (h2 :: t2)) ','
        (fun c hc => hostClean_no_comma hch c hc) (by decide)]
      simp only [List.map_cons, List.filter]
      rw [trimSpace_clean h (hostClean_no_ws hch)]
      rw [hostClean_ne_nil hch]
      have := ih (fun x hx => hcl x (List.mem_cons_of_mem _ hx))
      unfold parseCommaSeparated splitOnChar at this
      simp only [Bool.not_false, this]

theorem joinComma_isEmpty_false :
    ∀ (h : Str) (t : List Str), hostClean h = true → (joinComma (h :: t)).isEmpty = false := by
  intro h t hch
  cases t with
  | nil =>
    exact hostClean_ne_nil hch
  | cons h2 t2 =>
    have : joinComma (h :: h2 :: t2) = h ++ ',' :: joinComma (h2 :: t2) := rfl
    rw [this]
    cases hh : h with
    | nil =>
      subst hh
      simp [hostClean] at hch
    | cons c t3 => rfl

theorem goFields_token (a h : Str) (ha1 : a.isEmpty = false)
    (haw : ∀ c ∈ a, goIsSpace c = false) (hh1 : h.isEmpty = false)
    (hhw : ∀ c ∈ h, goIsSpace c = false) :
    goFields (recToken a h) = [a, h] := by
  unfold goFields recToken
  rw [splitOnP_append_sep goIsSpace a h ' ' haw (by decide)]
  rw [splitOnP_no_sep goIsSpace h hhw]
  simp [List.filter, ha1, hh1]

theorem parseTok_token (a h : Str) (ha1 : a.isEmpty = false)
    (haw : ∀ c ∈ a, goIsSpace c = false) (hh1 : h.isEmpty = false)
    (hhw : ∀ c ∈ h, goIsSpace c = false) :
    parseTok (recToken a h) = some (a, h) := by
  unfold parseTok
  rw [goFields_token a h ha1 haw hh1 hhw]

theorem goFields_pieces (t : Str) :
    ∀ f ∈ goFields t, f.isEmpty = false ∧ ∀ c ∈ f, goIsSpace c = false := by
  intro f hf
  unfold goFields at hf
  have hmem := List.mem_of_mem_filter hf
  have hpred := List.of_mem_filter hf
  exact ⟨by simpa using hpred, splitOnP_mem_no_sep goIsSpace t f hmem⟩

theorem parseTok_fields {t : Str} {r : Rec} (h : parseTok t = some r) :
    r.1 ∈ goFields t ∧ r.2 ∈ goFields t := by
  unfold parseTok at h
  cases hg : goFields t with
  | nil =>
    rw [hg] at h
    simp at h
  | cons a rest =>
    cases rest with
    | nil =>
      rw [hg] at h
      simp at h
    | cons d rest2 =>
      rw [hg] at h
      simp only [Option.some.injEq] at h
      rw [← h]
      exact ⟨List.mem_cons_self _ _, List.mem_cons_of_mem _ (List.mem_cons_self _ _)⟩

theorem parseRecords_reconstruct {S : Store} {r : Rec} (h : r ∈ parseRecords S) :
    parseTok (recToken r.1 r.2) = some (r.1, r.2) := by
  obtain ⟨t, ht, hp⟩ := List.mem_filterMap.mp h
  obtain ⟨h1, h2⟩ := parseTok_fields hp
  obtain ⟨e1, w1⟩ := goFields_pieces t r.1 h1
  obtain ⟨e2, w2⟩ := goFields_pieces t r.2 h2
  exact parseTok_token r.1 r.2 e1 w1 e2 w2

theorem recordMap_override :
    ∀ (recs : List Rec) (m : Str → Option Str) (k : Str),
      recs.foldl recStep m k
        = match recordMap recs k with
          | some v => some v
          | none => m k := by
  intro recs
  induction recs with
  | nil => intro m k; rfl
  | cons r t ih =>
    intro m k
    have lhs : List.foldl recStep m (r :: t) = List.foldl recStep (recStep m r) t := rfl
    rw [lhs, ih (recStep m r) k]
    have rhs : recordMap (r :: t) k = List.foldl recStep (recStep (fun _ => none) r) t k := rfl
    rw [rhs, ih (recStep (fun _ => none) r) k]
    cases hm : recordMap t k with
    | some v => simp
    | none =>
      dsimp only [recStep]
      by_cases hk : (k == r.2) = true <;> simp [hk]

theorem recordMap_cons (r : Rec) (t : List Rec) (k : Str) :
    recordMap (r :: t) k
      = match recordMap t k with
        | some v => some v
        | none => if k == r.2 then some r.1 else none := by
  have h0 : recordMap (r :: t) k = List.foldl recStep (recStep (fun _ => none) r) t k := rfl
  rw [h0, recordMap_override t (recStep (fun _ => none) r) k]
  cases recordMap t k <;> rfl

theorem recordMap_append (xs ys : List Rec) (k : Str) :
    recordMap (xs ++ ys) k
      = match recordMap ys k with
        | some v => some v
        | none => recordMap xs k := by
  have h0 : recordMap (xs ++ ys) k
      = List.foldl recStep ((fun _ => none) : Str → Option Str) (xs ++ ys) k := rfl
  rw [h0, List.foldl_append, recordMap_override ys (List.foldl recStep (fun _ => none) xs) k]
  cases recordMap ys k <;> rfl

theorem parseRecords_append_tok (S : Store) {t : Str} {r : Rec} (h : parseTok t = some r) :
    parseRecords (S ++ [t]) = parseRecords S ++ [r] := by
  unfold parseRecords
  rw [List.filterMap_append]
  simp [h]

theorem domLookup_put {S : Store} {a h : Str}
    (htok : parseTok (recToken a h) = some (a, h)) (k : Str) :
    domLookup (storePut S (recToken a h)) k
      = if k == h then some a else domLookup S k := by
  unfold domLookup storePut
  rw [parseRecords_append_tok S htok, recordMap_append]
  have h1 : recordMap [(a, h)] k = if k == h then some a else none := rfl
  rw [h1]
  by_cases hk : (k == h) = true <;> simp [hk]

theorem domLookup_erase_ne {T : Str} {a hd : Str}
    (hT : parseTok T = some (a, hd)) {k : Str} (hk : k ≠ hd) :
    ∀ S : Store, domLookup (S.erase T) k = domLookup S k := by
  intro S
  induction S with
  | nil => rfl
  | cons t S2 ih =>
    rw [List.erase_cons]
    by_cases ht : (t == T) = true
    · rw [if_pos ht]
      have heq : t = T := eq_of_beq ht
      subst heq
      unfold domLookup parseRecords
      rw [List.filterMap_cons, hT]
      rw [recordMap_cons]
      have hbeq : (k == hd) = false := beq_eq_false_iff_ne.mpr hk
      cases hm : recordMap (List.filterMap parseTok S2) k with
      | some v => simp
      | none => simp [hbeq]
    · rw [if_neg ht]
      unfold domLookup parseRecords
      rw [List.filterMap_cons, List.filterMap_cons]
      cases hp : parseTok t with
      | none => exact ih
      | some r =>
        rw [recordMap_cons, recordMap_cons]
        have ih2 : recordMap (List.filterMap parseTok (S2.erase T)) k
            = recordMap (List.filterMap parseTok S2) k := ih
        rw [ih2]

theorem domLookup_deleteRecord_ne (S : Store) (g k : Str) (hk : k ≠ g) :
    domLookup (deleteRecord S g).1 k = domLookup S k := by
  unfold deleteRecord
  cases hf : (parseRecords S).find? (fun r => r.2 == g) with
  | none => rfl
  | some r =>
    dsimp only
    have hp : (r.2 == g) = true :=
      @List.find?_some Rec (fun x => x.2 == g) r (parseRecords S) hf
    have hdom : r.2 = g := eq_of_beq hp
    have hrec := parseRecords_reconstruct (List.mem_of_find?_eq_some hf)
    unfold storeDel
    apply domLookup_erase_ne hrec
    rw [hdom]
    exact hk

theorem addrClean_ne_nil {a : Str} (ha : addrClean a = true) : a.isEmpty = false := by
  simp only [addrClean, Bool.and_eq_true] at ha
  simpa using ha.1

theorem addrClean_no_ws {a : Str} (ha : addrClean a = true) :
    ∀ c ∈ a, goIsSpace c = false := by
  intro c hmem
  simp only [addrClean, Bool.and_eq_true, List.all_eq_true] at ha
  simpa using ha.2 c hmem

theorem syncHosts_noFail_inv (A : Str) (m : Str → Option Str) :
    ∀ (hs : List Str) (st : PhaseSt),
      (∀ h ∈ hs, hostClean h = true) →
      addrClean A = true →
      (∀ g, m g = some A → domLookup st.store g = some A) →
      ∃ st1, syncHosts noFail A m hs st = .ok st1 ∧
        (∀ g, domLookup st.store g = some A → domLookup st1.store g = some A) ∧
        (∀ h ∈ hs, domLookup st1.store h = some A) := by
  intro hs
  induction hs with
  | nil =>
    intro st _ _ _
    exact ⟨st, rfl, fun _ hg => hg, by simp⟩
  | cons host t ih =>
    intro st hcl hA hP
    have hch := hcl host (List.mem_cons_self _ _)
    have hclt : ∀ h ∈ t, hostClean h = true :=
      fun x hx => hcl x (List.mem_cons_of_mem _ hx)
    have htok : parseTok (recToken A host) = some (A, host) :=
      parseTok_token A host (addrClean_ne_nil hA) (addrClean_no_ws hA)
        (hostClean_ne_nil hch) (hostClean_no_ws hch)
    cases hm : m host with
    | some ip =>
      by_cases hip : (ip == A) = true
      · have hstep : syncHosts noFail A m (host :: t) st = syncHosts noFail A m t st := by
          rw [syncHosts.eq_2, hm]
          dsimp only
          rw [if_pos hip]
        have hPA : m host = some A := by rw [hm, eq_of_beq hip]
        obtain ⟨st1, heq, hmono, hall⟩ := ih st hclt hA hP
        refine ⟨st1, by rw [hstep]; exact heq, hmono, ?_⟩
        intro h hmem
        rcases List.mem_cons.mp hmem with rfl | hmem2
        · exact hmono h (hP h hPA)
        · exact hall h hmem2
      · have hstep : syncHosts noFail A m (host :: t) st
            = syncHosts noFail A m t
              ⟨storePut (deleteRecord st.store host).1 (recToken A host),
                (st.calls ++ [CCall.delete host]) ++ [CCall.create A host],
                st.idx + 1 + 1⟩ := by
          rw [syncHosts.eq_2, hm]
          dsimp only
          rw [if_neg hip]
          rfl
        have hlook : ∀ g, domLookup (storePut (deleteRecord st.store host).1 (recToken A host)) g
            = if g == host then some A else domLookup st.store g := by
          intro g
          rw [domLookup_put htok g]
          by_cases hg : (g == host) = true
          · rw [if_pos hg, if_pos hg]
          · rw [if_neg hg, if_neg hg]
            have hne : g ≠ host := fun hEq => hg (beq_iff_eq.mpr hEq)
            exact domLookup_deleteRecord_ne st.store host g hne
        have hmono2 : ∀ g, domLookup st.store g = some A →
            domLookup (storePut (deleteRecord st.store host).1 (recToken A host)) g = some A := by
          intro g hg
          rw [hlook g]
          by_cases hgh : (g == host) = true
          · rw [if_pos hgh]
          · rw [if_neg hgh]
            exact hg
        have hP2 : ∀ g, m g = some A →
            domLookup (storePut (deleteRecord st.store host).1 (recToken A host)) g = some A :=
          fun g hg => hmono2 g (hP g hg)
        obtain ⟨st1, heq, hmono, hall⟩ := ih
          ⟨storePut (deleteRecord st.store host).1 (recToken A host),
            (st.calls ++ [CCall.delete host]) ++ [CCall.create A host],
            st.idx + 1 + 1⟩ hclt hA hP2
        refine ⟨st1, by rw [hstep]; exact heq, fun g hg => hmono g (hmono2 g hg), ?_⟩
        intro h hmem
        rcases List.mem_cons.mp hmem with rfl | hmem2
        · apply hmono
          rw [hlook h]
          simp
        · exact hall h hmem2
    | none =>
      have hstep : syncHosts noFail A m (host :: t) st
          = syncHosts noFail A m t
            ⟨storePut st.store (recToken A host),
              st.calls ++ [CCall.create A host], st.idx + 1⟩ := by
        rw [syncHosts.eq_2, hm]
        rfl
      have hlook : ∀ g, domLookup (storePut st.store (recToken A host)) g
          = if g == host then some A else domLookup st.store g :=
        fun g => domLookup_put htok g
      have hmono2 : ∀ g, domLookup st.store g = some A →
          domLookup (storePut st.store (recToken A host)) g = some A := by
        intro g hg
        rw [hlook g]
        by_cases hgh : (g == host) = true
        · rw [if_pos hgh]
        · rw [if_neg hgh]
          exact hg
      have hP2 : ∀ g, m g = some A →
          domLookup (storePut st.store (recToken A host)) g = some A :=
        fun g hg => hmono2 g (hP g hg)
      obtain ⟨st1, heq, hmono, hall⟩ := ih
        ⟨storePut st.store (recToken A host),
          st.calls ++ [CCall.create A host], st.idx + 1⟩ hclt hA hP2
      refine ⟨st1, by rw [hstep]; exact heq, fun g hg => hmono g (hmono2 g hg), ?_⟩
      intro h hmem
      rcases List.mem_cons.mp hmem with rfl | hmem2
      · apply hmono
        rw [hlook h]
        simp
      · exact hall h hmem2

theorem pruneHosts_noFail_eq (desired : List Str) :
    ∀ (hs : List Str) (st : PhaseSt),
      ∃ st1, pruneHosts noFail desired hs st = .ok st1 ∧
        ∀ g, desired.contains g = true → domLookup st1.store g = domLookup st.store g := by
  intro hs
  induction hs with
  | nil =>
    intro st
    exact ⟨st, rfl, fun _ _ => rfl⟩
  | cons host t ih =>
    intro st
    by_cases hcon : desired.contains host = true
    · have hstep : pruneHosts noFail desired (host :: t) st = pruneHosts noFail desired t st := by
        rw [pruneHosts.eq_2, if_pos hcon]
      obtain ⟨st1, heq, hk⟩ := ih st
      exact ⟨st1, by rw [hstep]; exact heq, hk⟩
    · have hstep : pruneHosts noFail desired (host :: t) st
          = pruneHosts noFail desired t
            ⟨(deleteRecord st.store host).1, st.calls ++ [CCall.delete host], st.idx + 1⟩ := by
        rw [pruneHosts.eq_2, if_neg hcon]
        rfl
      obtain ⟨st1, heq, hk⟩ := ih
        ⟨(deleteRecord st.store host).1, st.calls ++ [CCall.delete host], st.idx + 1⟩
      refine ⟨st1, by rw [hstep]; exact heq, ?_⟩
      intro g hg
      rw [hk g hg]
      have hne : g ≠ host := by
        intro hEq
        rw [hEq] at hg
        exact hcon hg
      exact domLookup_deleteRecord_ne st.store host g hne

theorem syncHosts_all_skip (A : Str) (m : Str → Option Str) :
    ∀ (hs : List Str) (st : PhaseSt), (∀ h ∈ hs, m h = some A) →
      syncHosts noFail A m hs st = .ok st := by
  intro hs
  induction hs with
  | nil => intro st _; rfl
  | cons host t ih =>
    intro st hall
    rw [syncHosts.eq_2, hall host (List.mem_cons_self _ _)]
    dsimp only
    rw [if_pos (beq_self_eq_true A)]
    exact ih st (fun x hx => hall x (List.mem_cons_of_mem _ hx))

theorem pruneHosts_all_skip (desired : List Str) :
    ∀ (hs : List Str) (st : PhaseSt), (∀ h ∈ hs, desired.contains h = true) →
      pruneHosts noFail desired hs st = .ok st := by
  intro hs
  induction hs with
  | nil => intro st _; rfl
  | cons host t ih =>
    intro st hall
    rw [pruneHosts.eq_2, if_pos (hall host (List.mem_cons_self _ _))]
    exact ih st (fun x hx => hall x (List.mem_cons_of_mem _ hx))

theorem lookupAnn_setAnn (ann : Annotations) (k v : Str) :
    lookupAnn (setAnn ann k v) k = some v := by
  unfold lookupAnn setAnn
  rw [List.find?_cons]
  simp

theorem lookupAnn_delAnn (ann : Annotations) (k : Str) :
    lookupAnn (delAnn ann k) k = none := by
  unfold lookupAnn delAnn
  rw [List.find?_eq_none.mpr ?_]
  · rfl
  · intro p hp hbeq
    have := List.of_mem_filter hp
    rw [hbeq] at this
    simp at this

theorem getManagedHosts_update (ann : Annotations) (H : List Str)
    (hH : ∀ h ∈ H, hostClean h = true) :
    getManagedHosts (updateManagedAnn ann H) = H := by
  cases H with
  | nil =>
    simp [updateManagedAnn, getManagedHosts, lookupAnn_delAnn]
  | cons h t =>
    unfold updateManagedAnn getManagedHosts
    rw [if_neg (by simp), lookupAnn_setAnn]
    show (if (joinComma (h :: t)).isEmpty = true then []
        else parseCommaSeparated (joinComma (h :: t))) = h :: t
    rw [joinComma_isEmpty_false h t (hH h (List.mem_cons_self _ _))]
    simp only [Bool.false_eq_true, if_false]
    exact joinComma_roundtrip (h :: t) hH

theorem recordsPhase_noFail_spec (H : List Str) (A : Str) (obj : RouteObj) (S : Store)
    (hH : ∀ h ∈ H, hostClean h = true) (hA : addrClean A = true) :
    ∃ (Sout : Store) (cs : List CCall),
      recordsPhase noFail H A obj S
        = ⟨⟨none, false⟩, { obj with annotations := updateManagedAnn obj.annotations H },
            Sout, cs⟩ ∧
      ∀ h ∈ H, domLookup Sout h = some A := by
  obtain ⟨stS, hsync, hmono, hall⟩ :=
    syncHosts_noFail_inv A (recordMap (parseRecords S)) H ⟨S, [], 1⟩ hH hA (fun _ hg => hg)
  obtain ⟨stP, hprune, hkeep⟩ := pruneHosts_noFail_eq H (getManagedHosts obj.annotations) stS
  refine ⟨stP.store, stP.calls, ?_, ?_⟩
  · unfold recordsPhase
    rw [show noFail 0 = none from rfl]
    dsimp only
    rw [hsync]
    dsimp only
    rw [hprune]
  · intro h hmem
    rw [hkeep h (List.elem_iff.mpr hmem)]
    exact hall h hmem

theorem recordsPhase_noFail_skip (H : List Str) (A : Str) (obj : RouteObj) (S : Store)
    (hbound : ∀ h ∈ H, domLookup S h = some A)
    (hman : ∀ h ∈ getManagedHosts obj.annotations, H.contains h = true) :
    (recordsPhase noFail H A obj S).calls = [] := by
  unfold recordsPhase
  rw [show noFail 0 = none from rfl]
  dsimp only
  rw [syncHosts_all_skip A (recordMap (parseRecords S)) H ⟨S, [], 1⟩ (fun h hm => hbound h hm)]
  dsimp only
  rw [pruneHosts_all_skip H (getManagedHosts obj.annotations) ⟨S, [], 1⟩ hman]

/-- Claim C6 as amended: for every hostname list whose entries are
non-empty and free of whitespace and commas (so they survive the store's
space-separated token format and the managed-set's comma-joined
annotation), and every non-empty whitespace-free address (true of every
IPv4 literal), running the reconcile's record phases twice with unchanged
desired state, the first run's annotations, and the first run's store
issues zero store-mutating calls on the second run. -/
theorem c6_amended_idempotent (H : List Str) (A : Str) (ann : Annotations) (S : Store)
    (hH : ∀ h ∈ H, hostClean h = true) (hA : addrClean A = true) :
    (recordsPhase noFail H A
        ((recordsPhase noFail H A ⟨false, true, ann, []⟩ S).obj)
        ((recordsPhase noFail H A ⟨false, true, ann, []⟩ S).store)).calls = [] := by
  obtain ⟨Sout, cs, h1, hbound⟩ := recordsPhase_noFail_spec H A ⟨false, true, ann, []⟩ S hH hA
  rw [h1]
  apply recordsPhase_noFail_skip
  · exact hbound
  · intro h hmem
    have hgm : getManagedHosts
        (({ RouteObj.mk false true ann [] with
            annotations := updateManagedAnn ann H } : RouteObj).annotations) = H := by
      exact getManagedHosts_update ann H hH
    rw [hgm] at hmem
    exact List.elem_iff.mpr hmem

/-- Witness for the amended C6 at a concrete clean hostname and address. -/
theorem c6_amended_idempotent_witness :
    (recordsPhase noFail [str "app.local"] (str "1.2.3.4")
        ((recordsPhase noFail [str "app.local"] (str "1.2.3.4") ⟨false, true, [], []⟩ []).obj)
        ((recordsPhase noFail [str "app.local"] (str "1.2.3.4") ⟨false, true, [], []⟩ []).store)).calls
      = [] :=
  c6_amended_idempotent [str "app.local"] (str "1.2.3.4") [] [] (by decide) (by decide)

end PiholeOperator
